import Mathlib

/-!
Verification of the glitch-art pixel-buffer core (src/glitch_this/glitch_this.py).

The embedding models the three core operations of `ImageGlitcher`:

* `glitch_right` / `glitch_left` (band shifts): the code draws a vertical band
  with `start_y = randint(0, img_height)` and
  `chunk_height = min(randint(1, int(img_height/4)), img_height - start_y)`,
  then moves whole pixel tuples of the band horizontally with wraparound via
  four numpy slice assignments, reading `inputarr` and writing `outputarr`.
  Buffers are functions `Nat → Nat → β` over an abstract pixel type `β`
  (a pixel tuple moves as a whole value).  Random draws are modelled by an
  oracle value `v`; `randint lo hi v` has support exactly `[lo, hi]` and fails
  (Python `ValueError`) exactly when `hi < lo`.

* `color_offset` (channel offsetter): the code flattens the image to shape
  `(img_height, img_width * pixel_tuple_len)`, iterates `np.ndenumerate` in
  row-major order, skips columns with `index[1] % pixel_tuple_len != 0`,
  updates the two offsets in place when a wrap condition triggers, and assigns
  `outputarr[offset_y + index[0], offset_x + index[1]] = x`.  Python/numpy
  signed indexing is modelled by `pyWrap` (valid range `[-n, n)`, negative
  indices count from the end, anything else is an `IndexError`, i.e. `none`).

* the per-iteration orchestrator logic of `glitch_image` (lines 43-57):
  draw `current_offset = randint(0, max_offset)`, skip when it is 0, call
  `glitch_left` on negative values and `glitch_right` otherwise.
-/

/-- A pixel/sample buffer: a row-major grid of values, addressed `b row col`. -/
def Buf (α : Type) : Type := Nat → Nat → α

/-- Point update of a buffer, modelling a single numpy element assignment. -/
def updBuf {α : Type} (b : Buf α) (r c : Nat) (v : α) : Buf α :=
  fun r' c' => if r' = r ∧ c' = c then v else b r' c'

/-- Python `random.randint(lo, hi)` over naturals: the oracle `v` selects one
outcome; the support is exactly `[lo, hi]`, and the call raises `ValueError`
(returns `none`) exactly when `hi < lo`. -/
def randint (lo hi v : Nat) : Option Nat :=
  if hi < lo then none else some (lo + v % (hi - lo + 1))

/-- Python `random.randint(lo, hi)` over integers (used for the orchestrator's
offset draw, whose sign is branched on afterwards). -/
def randintI (lo hi : Int) (v : Nat) : Option Int :=
  if hi < lo then none else some (lo + (v % (hi - lo + 1).toNat : Nat))

/-- Line 96/131: `chunk_height = min(chunk_height, self.img_height - start_y)`. -/
def chunk_clamp (h start_y ch : Nat) : Nat := min ch (h - start_y)

/-- Lines 109-142 (`glitch_right`): draw `start_y = randint(0, img_height)` and
`chunk_height = randint(1, int(img_height/4))` (oracle values `v1`, `v2`), clamp
the chunk, then perform
`outputarr[start_y:stop_y, offset:] = inputarr[start_y:stop_y, :img_width-offset]`
and `outputarr[start_y:stop_y, :offset] = inputarr[start_y:stop_y, img_width-offset:]`. -/
def glitch_right {β : Type} (h w : Nat) (inp out : Buf β) (offset v1 v2 : Nat) :
    Option (Buf β) :=
  (randint 0 h v1).bind fun start_y =>
  (randint 1 (h / 4) v2).map fun ch0 =>
    let chunk_height := chunk_clamp h start_y ch0
    let stop_y := start_y + chunk_height
    let stop_x := w - offset
    fun r c =>
      if start_y ≤ r ∧ r < stop_y ∧ c < w then
        if offset ≤ c then inp r (c - offset) else inp r (stop_x + c)
      else out r c

/-- Lines 74-107 (`glitch_left`): same band selection, then
`outputarr[start_y:stop_y, :img_width-offset] = inputarr[start_y:stop_y, offset:]`
and `outputarr[start_y:stop_y, img_width-offset:] = inputarr[start_y:stop_y, :offset]`. -/
def glitch_left {β : Type} (h w : Nat) (inp out : Buf β) (offset v1 v2 : Nat) :
    Option (Buf β) :=
  (randint 0 h v1).bind fun start_y =>
  (randint 1 (h / 4) v2).map fun ch0 =>
    let chunk_height := chunk_clamp h start_y ch0
    let stop_y := start_y + chunk_height
    let stop_x := w - offset
    fun r c =>
      if start_y ≤ r ∧ r < stop_y ∧ c < w then
        if c < stop_x then inp r (c + offset) else inp r (c - stop_x)
      else out r c

/-- Python/numpy signed element indexing into an axis of length `n`:
valid for `-n ≤ i < n` (negative indices count from the end, which is the
value `i mod n`), otherwise an `IndexError`. -/
def pyWrap (n : Nat) (i : Int) : Option Nat :=
  if -(n : Int) ≤ i ∧ i < (n : Int) then some (i % (n : Int)).toNat else none

/-- Mathematical wraparound used to state toroidal addressing: `i mod n` as a
natural number. -/
def wrapN (n : Nat) (i : Int) : Nat := (i % (n : Int)).toNat

/-- The mutable state of the `color_offset` loop: the two offset variables the
code reassigns in place, and the output buffer. -/
structure COState (α : Type) where
  offY : Int
  offX : Int
  out : Buf α

/-- One step of the `color_offset` loop body (lines 184-191) at position
`rc = (index[0], index[1])`:
skip when `index[1] % pixel_tuple_len != 0`; set `offset_y = -index[0]` when
`offset_y + index[0] >= img_height`; set `offset_x = -index[1] + channel_index`
when `offset_x + index[1] >= img_width * pixel_tuple_len`; then assign
`outputarr[offset_y + index[0], offset_x + index[1]] = inputarr[index]`. -/
def coStep {α : Type} (h W ptl ci : Nat) (src : Buf α) (s : COState α)
    (rc : Nat × Nat) : Option (COState α) :=
  if rc.2 % ptl ≠ 0 then some s
  else
    let oY : Int := if (h : Int) ≤ s.offY + rc.1 then -(rc.1 : Int) else s.offY
    let oX : Int := if (W : Int) ≤ s.offX + rc.2 then -(rc.2 : Int) + ci else s.offX
    match pyWrap h (oY + rc.1), pyWrap W (oX + rc.2) with
    | some r', some c' => some ⟨oY, oX, updBuf s.out r' c' (src rc.1 rc.2)⟩
    | _, _ => none

/-- Positions `(r, c), (r, c+1), ..., (r, c+n-1)` of one row, in order. -/
def colsFrom (r c n : Nat) : List (Nat × Nat) :=
  match n with
  | 0 => []
  | n + 1 => (r, c) :: colsFrom r (c + 1) n

/-- Row-major positions of rows `r, r+1, ..., r+n-1`, each with columns
`0, ..., W-1`: the order `np.ndenumerate` visits a 2-D array. -/
def rowsFrom (W r n : Nat) : List (Nat × Nat) :=
  match n with
  | 0 => []
  | n + 1 => colsFrom r 0 W ++ rowsFrom W (r + 1) n

/-- All positions of an `h × W` array in `np.ndenumerate` (row-major) order. -/
def enumIdx (h W : Nat) : List (Nat × Nat) := rowsFrom W 0 h

/-- Lines 144-191 (`color_offset offset_x offset_y channel_index`), acting on
the flattened `img_height × (img_width * pixel_tuple_len)` views: the initial
flat offset is `offset_x * pixel_tuple_len + channel_index` unless
`offset_x == 0`, in which case it is `channel_index`; then the loop of `coStep`
runs over every position in row-major order. -/
def color_offset {α : Type} (h width ptl ci : Nat) (offset_x offset_y : Int)
    (dest src : Buf α) : Option (Buf α) :=
  let offX : Int := if offset_x = 0 then (ci : Int) else offset_x * ptl + ci
  (List.foldlM (coStep h (width * ptl) ptl ci src) ⟨offset_y, offX, dest⟩
      (enumIdx h (width * ptl))).map COState.out

/-- One iteration of the glitch loop (lines 43-57 of `glitch_image`): draw
`current_offset = randint(0, max_offset)`; `continue` when it is 0; call
`glitch_left(-current_offset)` when negative, else `glitch_right(current_offset)`. -/
def glitch_iteration {β : Type} (h w : Nat) (inp out : Buf β) (max_offset : Int)
    (vo v1 v2 : Nat) : Option (Buf β) :=
  (randintI 0 max_offset vo).bind fun current_offset =>
    if current_offset = 0 then some out
    else if current_offset < 0 then glitch_left h w inp out (-current_offset).toNat v1 v2
    else glitch_right h w inp out current_offset.toNat v1 v2

/-- The band-shift loop of `glitch_image` (lines 43-57): one `glitch_iteration`
per draw triple, threading the output buffer while the input buffer stays
fixed. -/
def glitch_loop {β : Type} (h w : Nat) (inp : Buf β) (max_offset : Int)
    (out : Buf β) (draws : List (Nat × Nat × Nat)) : Option (Buf β) :=
  match draws with
  | [] => some out
  | d :: rest =>
    (glitch_iteration h w inp out max_offset d.1 d.2.1 d.2.2).bind fun out' =>
      glitch_loop h w inp max_offset out' rest

/-- Modelled from the spec: the reference behavior with the "shift-left" branch
removed — every non-skipped iteration calls the rightward shift.  Used to state
that the left branch of `glitch_iteration` is dead code. -/
def glitch_iteration_rightOnly {β : Type} (h w : Nat) (inp out : Buf β)
    (max_offset : Int) (vo v1 v2 : Nat) : Option (Buf β) :=
  (randintI 0 max_offset vo).bind fun current_offset =>
    if current_offset = 0 then some out
    else glitch_right h w inp out current_offset.toNat v1 v2

/-- Modelled from the spec: the glitch loop driven by the right-only iteration. -/
def glitch_loop_rightOnly {β : Type} (h w : Nat) (inp : Buf β) (max_offset : Int)
    (out : Buf β) (draws : List (Nat × Nat × Nat)) : Option (Buf β) :=
  match draws with
  | [] => some out
  | d :: rest =>
    (glitch_iteration_rightOnly h w inp out max_offset d.1 d.2.1 d.2.2).bind fun out' =>
      glitch_loop_rightOnly h w inp max_offset out' rest

/-- Concrete buffer whose sample at `(r, c)` is the row index, used for
counterexamples. -/
def rowSrc : Buf ℤ := fun r _ => (r : ℤ)

/-- Concrete buffer whose sample at `(r, c)` is the (flattened) column index,
used for counterexamples. -/
def colSrc : Buf ℤ := fun _ c => (c : ℤ)

/-- The initial flattened column offset of `color_offset`:
`offset_x * pixel_tuple_len + channel_index` (which is also the value the code
takes in its special branch for `offset_x = 0`). -/
def offX0 (ptl ci : Nat) (off_x : Int) : Int := off_x * ptl + ci

/-- Invariant for the in-place `offset_y` variable of `color_offset` at the
start of row `r`, before the row's first processed position: either the wrap
never fired (and will not have needed to), or it fired at the exact row where
the running sum reached `h`. -/
def YSpre (h : Nat) (off_y : Int) (r : Nat) (Y : Int) : Prop :=
  (Y = off_y ∧ off_y + r ≤ h) ∨ (Y = off_y - h ∧ (h : Int) < off_y + r ∧ 1 ≤ off_y)

/-- Invariant for the in-place `offset_y` variable after the row-wrap check has
run on some position of row `r`. -/
def YS (h : Nat) (off_y : Int) (r : Nat) (Y : Int) : Prop :=
  (Y = off_y ∧ off_y + r < h) ∨ (Y = off_y - h ∧ (h : Int) ≤ off_y + r ∧ 1 ≤ off_y)

/-- Invariant for the in-place `offset_x` variable of `color_offset` when the
enumeration stands just before column `c` of the current row: either the column
wrap has not fired (and no processed column of this row so far could have fired
it), or it fired once and subtracted one full flattened width. -/
def XI (W ptl ci : Nat) (off_x : Int) (c : Nat) (X : Int) : Prop :=
  (X = offX0 ptl ci off_x ∧
    ∀ c' < c, c' % ptl = 0 → offX0 ptl ci off_x + (c' : Int) < (W : Int)) ∨
  (X = offX0 ptl ci off_x - W ∧ (ptl : Int) ≤ offX0 ptl ci off_x)

/-- All samples at positions processed so far (row-major, strictly before row
`r`, column `c`) have been written to their toroidal destination in `o`. -/
def Written {α : Type} (h W ptl ci : Nat) (off_x off_y : Int) (src o : Buf α)
    (r c : Nat) : Prop :=
  ∀ r₀ c₀ : Nat, (r₀ < r ∨ (r₀ = r ∧ c₀ < c)) → r₀ < h → c₀ < W → c₀ % ptl = 0 →
    o (wrapN h ((r₀ : Int) + off_y)) (wrapN W ((c₀ : Int) + offX0 ptl ci off_x)) = src r₀ c₀

/-! ### General helper lemmas -/

theorem foldlM_head_congr {σ τ : Type} (f : σ → τ → Option σ) (s1 s2 : σ) (a : τ)
    (l : List τ) (hstep : f s1 a = f s2 a) :
    List.foldlM f s1 (a :: l) = List.foldlM f s2 (a :: l) := by
  rw [List.foldlM_cons, List.foldlM_cons, hstep]

theorem rowsFrom_zero_width (r n : Nat) : rowsFrom 0 r n = [] := by
  induction n generalizing r with
  | zero => rfl
  | succ n ih => simp [rowsFrom, colsFrom, ih]

/-! ### C4: band shifts move the slices stated in the spec -/

/-- C4.  For rows of the selected band, `glitch_right` with `1 ≤ offset < width`
realizes `dest[r][offset:] = src[r][:width-offset]` and
`dest[r][:offset] = src[r][width-offset:]`; `glitch_left` realizes the mirror
image; rows outside the band keep the destination's prior values.  Pixel tuples
move as whole values of the abstract pixel type `β`. -/
theorem band_shift_slices {β : Type} (h w : Nat) (inp out : Buf β)
    (offset v1 v2 sy ch0 : Nat) (h1 : 1 ≤ offset) (h2 : offset < w)
    (hsy : randint 0 h v1 = some sy) (hch : randint 1 (h / 4) v2 = some ch0) :
    (∀ bR, glitch_right h w inp out offset v1 v2 = some bR →
      (∀ r, sy ≤ r → r < sy + chunk_clamp h sy ch0 →
        (∀ c, offset ≤ c → c < w → bR r c = inp r (c - offset)) ∧
        (∀ c, c < offset → bR r c = inp r (w - offset + c))) ∧
      (∀ r, r < sy ∨ sy + chunk_clamp h sy ch0 ≤ r → ∀ c, bR r c = out r c)) ∧
    (∀ bL, glitch_left h w inp out offset v1 v2 = some bL →
      (∀ r, sy ≤ r → r < sy + chunk_clamp h sy ch0 →
        (∀ c, c < w - offset → bL r c = inp r (c + offset)) ∧
        (∀ c, w - offset ≤ c → c < w → bL r c = inp r (c - (w - offset)))) ∧
      (∀ r, r < sy ∨ sy + chunk_clamp h sy ch0 ≤ r → ∀ c, bL r c = out r c)) := by
  constructor
  · intro bR hb
    rw [glitch_right, hsy, hch] at hb
    simp only [Option.some_bind, Option.map_some', Option.some.injEq] at hb
    subst hb
    refine ⟨fun r hr1 hr2 => ⟨fun c hc1 hc2 => ?_, fun c hc => ?_⟩,
      fun r hr c => ?_⟩
    · show (if sy ≤ r ∧ r < sy + chunk_clamp h sy ch0 ∧ c < w then
          if offset ≤ c then inp r (c - offset) else inp r (w - offset + c)
        else out r c) = inp r (c - offset)
      rw [if_pos ⟨hr1, hr2, hc2⟩, if_pos hc1]
    · show (if sy ≤ r ∧ r < sy + chunk_clamp h sy ch0 ∧ c < w then
          if offset ≤ c then inp r (c - offset) else inp r (w - offset + c)
        else out r c) = inp r (w - offset + c)
      rw [if_pos ⟨hr1, hr2, by omega⟩, if_neg (by omega)]
    · show (if sy ≤ r ∧ r < sy + chunk_clamp h sy ch0 ∧ c < w then
          if offset ≤ c then inp r (c - offset) else inp r (w - offset + c)
        else out r c) = out r c
      rw [if_neg (by omega)]
  · intro bL hb
    rw [glitch_left, hsy, hch] at hb
    simp only [Option.some_bind, Option.map_some', Option.some.injEq] at hb
    subst hb
    refine ⟨fun r hr1 hr2 => ⟨fun c hc => ?_, fun c hc1 hc2 => ?_⟩,
      fun r hr c => ?_⟩
    · show (if sy ≤ r ∧ r < sy + chunk_clamp h sy ch0 ∧ c < w then
          if c < w - offset then inp r (c + offset) else inp r (c - (w - offset))
        else out r c) = inp r (c + offset)
      rw [if_pos ⟨hr1, hr2, by omega⟩, if_pos hc]
    · show (if sy ≤ r ∧ r < sy + chunk_clamp h sy ch0 ∧ c < w then
          if c < w - offset then inp r (c + offset) else inp r (c - (w - offset))
        else out r c) = inp r (c - (w - offset))
      rw [if_pos ⟨hr1, hr2, hc2⟩, if_neg (by omega)]
    · show (if sy ≤ r ∧ r < sy + chunk_clamp h sy ch0 ∧ c < w then
          if c < w - offset then inp r (c + offset) else inp r (c - (w - offset))
        else out r c) = out r c
      rw [if_neg (by omega)]

/-- C4 witness: on a concrete 4×2 image with `offset = 1` and oracle draws 0,
the band is rows `[0, 1)` and the wrapped column 0 receives `inp 0 1`. -/
theorem band_shift_slices_witness :
    (glitch_right 4 2 rowSrc colSrc 1 0 0).map (fun b => b 0 0) =
      some (rowSrc 0 1) := by
  cases hb : glitch_right 4 2 rowSrc colSrc 1 0 0 with
  | none => simp [glitch_right, randint] at hb
  | some b =>
    have H := (band_shift_slices 4 2 rowSrc colSrc 1 0 0 0 1 (by decide) (by decide)
      (by decide) (by decide)).1 b hb
    have h00 := (H.1 0 (by decide) (by decide)).2 0 (by decide)
    simp only [Option.map_some']
    rw [h00]

/-! ### C5: band selection draws -/

/-- C5 counterexample: the claim says `startRow` is drawn from `[0, height)`
with `height` itself excluded, but the code draws `randint(0, img_height)`,
whose support includes `height` itself: with `height = 4` the oracle value 4
yields `startRow = 4`. -/
theorem band_start_draw_counterexample :
    ¬ (∀ sy, randint 0 4 4 = some sy → sy < 4) :=
  fun H => absurd (H 4 (by decide)) (by decide)

/-- C5 amended: `startRow` is drawn uniformly from `[0, height]` (inclusive of
`height`, which the clamp then turns into an empty band), `bandHeight` is drawn
uniformly from `[1, height/4]`, and the clamp `chunk_clamp` guarantees
`startRow + bandHeight ≤ height` without raising an error.  Uniformity beyond
the support is not formalized; the support and the clamp bound are. -/
theorem band_selection_support (hgt : Nat) :
    (∀ v sy, randint 0 hgt v = some sy → sy ≤ hgt) ∧
    (∀ sy, sy ≤ hgt → ∃ v, randint 0 hgt v = some sy) ∧
    (∀ v ch, randint 1 (hgt / 4) v = some ch → 1 ≤ ch ∧ ch ≤ hgt / 4) ∧
    (∀ ch, 1 ≤ ch → ch ≤ hgt / 4 → ∃ v, randint 1 (hgt / 4) v = some ch) ∧
    (∀ sy ch, sy ≤ hgt → sy + chunk_clamp hgt sy ch ≤ hgt) := by
  refine ⟨?_, ?_, ?_, ?_, ?_⟩
  · intro v sy hv
    simp only [randint, Nat.not_lt_zero, if_false, Option.some.injEq] at hv
    have := Nat.mod_lt v (y := hgt - 0 + 1) (by omega)
    omega
  · intro sy hsy
    refine ⟨sy, ?_⟩
    simp only [randint, Nat.not_lt_zero, if_false, Option.some.injEq]
    rw [Nat.mod_eq_of_lt (by omega : sy < hgt - 0 + 1)]
    omega
  · intro v ch hv
    simp only [randint] at hv
    split at hv
    · exact absurd hv (by simp)
    · simp only [Option.some.injEq] at hv
      have := Nat.mod_lt v (y := hgt / 4 - 1 + 1) (by omega)
      omega
  · intro ch hch1 hch2
    refine ⟨ch - 1, ?_⟩
    simp only [randint, if_neg (by omega : ¬ hgt / 4 < 1), Option.some.injEq]
    rw [Nat.mod_eq_of_lt (by omega : ch - 1 < hgt / 4 - 1 + 1)]
    omega
  · intro sy ch hsy
    simp only [chunk_clamp]
    omega

/-- C5 witness: with `height = 8` the clamped band starting at row 3 with drawn
height 5 fits inside the image. -/
theorem band_selection_support_witness : 3 + chunk_clamp 8 3 5 ≤ 8 :=
  (band_selection_support 8).2.2.2.2 3 5 (by decide)

/-! ### C6: offset 0 is not an error -/

/-- C6 counterexample: the claim says a shift called with `offset = 0` fails
with an `InvalidOffset` error, but the code raises nothing: both shifts succeed
on a concrete buffer with `offset = 0`. -/
theorem shift_zero_offset_counterexample :
    (glitch_right 4 2 rowSrc colSrc 0 0 0).isSome = true ∧
    (glitch_left 4 2 rowSrc colSrc 0 0 0).isSome = true := by decide

/-- C6 amended: calling a shift with `offset = 0` is not rejected — it succeeds
and merely copies the selected band from source to destination unchanged (a
no-op on a destination that already equals the source there); the orchestrator
nevertheless skips any iteration whose drawn offset is 0 without invoking a
shift, returning the destination untouched. -/
theorem shift_zero_offset_behavior {β : Type} (hgt w : Nat) (inp out : Buf β)
    (v1 v2 sy ch0 : Nat)
    (hsy : randint 0 hgt v1 = some sy) (hch : randint 1 (hgt / 4) v2 = some ch0) :
    (∃ bR, glitch_right hgt w inp out 0 v1 v2 = some bR ∧
      ∀ r c, bR r c =
        if sy ≤ r ∧ r < sy + chunk_clamp hgt sy ch0 ∧ c < w then inp r c
        else out r c) ∧
    (∃ bL, glitch_left hgt w inp out 0 v1 v2 = some bL ∧
      ∀ r c, bL r c =
        if sy ≤ r ∧ r < sy + chunk_clamp hgt sy ch0 ∧ c < w then inp r c
        else out r c) ∧
    (∀ (m : Int) (vo : Nat), randintI 0 m vo = some 0 →
      glitch_iteration hgt w inp out m vo v1 v2 = some out) := by
  refine ⟨?_, ?_, ?_⟩
  · refine ⟨_, by rw [glitch_right, hsy, hch]; rfl, fun r c => ?_⟩
    show (if sy ≤ r ∧ r < sy + chunk_clamp hgt sy ch0 ∧ c < w then
        if 0 ≤ c then inp r (c - 0) else inp r (w - 0 + c)
      else out r c) = _
    split
    · rw [if_pos (Nat.zero_le c), Nat.sub_zero]
    · rfl
  · refine ⟨_, by rw [glitch_left, hsy, hch]; rfl, fun r c => ?_⟩
    show (if sy ≤ r ∧ r < sy + chunk_clamp hgt sy ch0 ∧ c < w then
        if c < w - 0 then inp r (c + 0) else inp r (c - (w - 0))
      else out r c) = _
    split
    · next hband => rw [if_pos (by omega : c < w - 0), Nat.add_zero]
    · rfl
  · intro m vo hvo
    rw [glitch_iteration, hvo]
    rfl

/-- C6 witness: a concrete skipped iteration (drawn offset 0) returns the
destination buffer unchanged. -/
theorem shift_zero_offset_behavior_witness :
    glitch_iteration 4 2 rowSrc colSrc 5 0 0 0 = some colSrc :=
  (shift_zero_offset_behavior 4 2 rowSrc colSrc 0 0 0 1 (by decide)
    (by decide)).2.2 5 0 (by decide)

/-! ### C9: the leftward branch is dead code -/

theorem glitch_iteration_eq_rightOnly {β : Type} (h w : Nat) (inp out : Buf β)
    (m : Int) (vo v1 v2 : Nat) :
    glitch_iteration h w inp out m vo v1 v2 =
      glitch_iteration_rightOnly h w inp out m vo v1 v2 := by
  rw [glitch_iteration, glitch_iteration_rightOnly, randintI]
  split
  · rfl
  · simp only [Option.some_bind]
    split
    · rfl
    · rw [if_neg]
      omega

/-- C9.  The offset drawn by each iteration lies in `[0, max_offset]`, never
negative, so the `glitch_left` branch of the orchestrator is unreachable: the
glitch loop is extensionally equal to the loop whose iterations have the
left branch removed and always call `glitch_right` when not skipping. -/
theorem glitch_left_branch_dead {β : Type} (h w : Nat) (inp : Buf β) (m : Int)
    (out : Buf β) (draws : List (Nat × Nat × Nat)) :
    glitch_loop h w inp m out draws = glitch_loop_rightOnly h w inp m out draws := by
  induction draws generalizing out with
  | nil => rfl
  | cons d rest ih =>
    rw [glitch_loop, glitch_loop_rightOnly, glitch_iteration_eq_rightOnly]
    cases glitch_iteration_rightOnly h w inp out m d.1 d.2.1 d.2.2 with
    | none => rfl
    | some out' => simpa using ih out'

/-! ### C10: small heights make a non-skipped iteration fail -/

/-- C10.  For an image of height 1 ≤ h ≤ 3 we have `int(h/4) = 0`, so whenever
an iteration draws a nonzero offset, the band-height draw `randint(1, 0)` has
an empty range and the iteration fails (Python `ValueError`) instead of
selecting a band — `glitch` can raise on a well-formed image. -/
theorem small_height_iteration_fails {β : Type} (h w : Nat) (inp out : Buf β)
    (m : Int) (vo v1 v2 : Nat) (o : Int) (hh1 : 1 ≤ h) (hh2 : h ≤ 3)
    (ho : randintI 0 m vo = some o) (hoz : o ≠ 0) :
    glitch_iteration h w inp out m vo v1 v2 = none := by
  have h4 : h / 4 = 0 := by omega
  have honn : 0 ≤ o := by
    rw [randintI] at ho
    split at ho
    · exact absurd ho (by simp)
    · simp only [Option.some.injEq] at ho
      omega
  rw [glitch_iteration, ho]
  simp only [Option.some_bind]
  rw [if_neg hoz, if_neg (by omega : ¬ o < 0), glitch_right, h4]
  obtain ⟨sy, hsy⟩ : ∃ sy, randint 0 h v1 = some sy :=
    ⟨_, by rw [randint, if_neg (Nat.not_lt_zero h)]⟩
  rw [hsy, show randint 1 0 v2 = none from rfl]
  rfl

/-- C10 witness: a height-1 image, a drawn offset of 1; the iteration fails. -/
theorem small_height_iteration_fails_witness :
    glitch_iteration 1 5 rowSrc colSrc 1 1 0 0 = none :=
  small_height_iteration_fails 1 5 rowSrc colSrc 1 1 0 0 1 (by decide) (by decide)
    (by decide) (by decide)

/-! ### C2 and C3: the channel actually read is channel 0 -/

/-- C2.  The claim says `color_offset` enumerates and reads exactly the
positions of the selected channel (`flatCol ≡ channelIndex (mod ptl)`).  The
code's guard is `index[1] % pixel_tuple_len == 0`, i.e. it always reads channel
0's samples, while writing them into the selected channel's slots — contradicting
the function's own docstring ("If channel to be replaced is RED, the value to
start from in both arrays should also be RED").  Concretely, with one pixel of
3 channels, `channel_index = 2` and zero offsets, the channel-2 slot of the
output receives the channel-0 sample `colSrc 0 0`, not the channel-2 sample. -/
theorem channel_read_mismatch :
    (color_offset 1 1 3 2 0 0 colSrc colSrc).map (fun b => b 0 2) =
      some (colSrc 0 0) ∧ colSrc 0 0 ≠ colSrc 0 2 := by decide

/-- C3.  The claim says zero offsets leave the selected channel unchanged in
place when the destination starts as a copy of the source.  Because the code
reads channel 0 (see `channel_read_mismatch`), with `channel_index = 1` and
zero offsets the channel-1 slot is overwritten with the channel-0 sample:
`b 0 1 = colSrc 0 0 = 0 ≠ 1 = colSrc 0 1`. -/
theorem zero_offset_not_identity :
    (color_offset 1 1 2 1 0 0 colSrc colSrc).map (fun b => b 0 1) =
      some (colSrc 0 0) ∧ colSrc 0 0 ≠ colSrc 0 1 := by decide

/-! ### C8: a full-cycle offset equals offset 0 -/

theorem color_offset_height_zero {α : Type} (width ptl ci : Nat) (ox oy : Int)
    (dest src : Buf α) : color_offset 0 width ptl ci ox oy dest src = some dest := rfl

theorem color_offset_flat_zero {α : Type} (h width ptl ci : Nat) (ox oy : Int)
    (dest src : Buf α) (hW : width * ptl = 0) :
    color_offset h width ptl ci ox oy dest src = some dest := by
  rw [color_offset, enumIdx, hW, rowsFrom_zero_width]
  rfl

theorem enumIdx_cons (k m : Nat) :
    enumIdx (k + 1) (m + 1) = (0, 0) :: (colsFrom 0 1 m ++ rowsFrom (m + 1) 1 k) := rfl

theorem coStep_row_wrap_head {α : Type} (h W ptl ci : Nat) (src : Buf α) (oX : Int)
    (out : Buf α) :
    coStep h W ptl ci src ⟨(h : Int), oX, out⟩ (0, 0) =
      coStep h W ptl ci src ⟨0, oX, out⟩ (0, 0) := by
  unfold coStep
  simp only [Nat.zero_mod, ne_eq, not_true_eq_false, if_false, Nat.cast_zero, add_zero,
    neg_zero, le_refl, if_true, zero_add, ite_self]

theorem coStep_col_wrap_head {α : Type} (h W ptl ci : Nat) (src : Buf α) (oY : Int)
    (out : Buf α) :
    coStep h W ptl ci src ⟨oY, (W : Int) + ci, out⟩ (0, 0) =
      coStep h W ptl ci src ⟨oY, (ci : Int), out⟩ (0, 0) := by
  unfold coStep
  simp only [Nat.zero_mod, ne_eq, not_true_eq_false, if_false, Nat.cast_zero, add_zero,
    neg_zero, zero_add, ite_self]
  rw [if_pos (by omega : (W : Int) ≤ (W : Int) + ci)]

/-- C8.  A row offset of exactly `height` produces the same output as row
offset 0, and a column offset of exactly `width` produces the same output as
column offset 0, for every buffer and channel index: the in-place wrap of
`color_offset` fires on the very first enumerated position and resets the
running offset to the value the zero-offset run starts with. -/
theorem full_cycle_wrap_eq_zero {α : Type} (h width ptl ci : Nat) (off_x off_y : Int)
    (dest src : Buf α) :
    (color_offset h width ptl ci off_x (h : Int) dest src =
      color_offset h width ptl ci off_x 0 dest src) ∧
    (color_offset h width ptl ci (width : Int) off_y dest src =
      color_offset h width ptl ci 0 off_y dest src) := by
  constructor
  · rcases Nat.eq_zero_or_pos h with hh | hh
    · subst hh
      rw [color_offset_height_zero, color_offset_height_zero]
    rcases Nat.eq_zero_or_pos (width * ptl) with hW | hW
    · rw [color_offset_flat_zero _ _ _ _ _ _ _ _ hW, color_offset_flat_zero _ _ _ _ _ _ _ _ hW]
    obtain ⟨k, hk⟩ : ∃ k, h = k + 1 := ⟨h - 1, by omega⟩
    obtain ⟨m, hm⟩ : ∃ m, width * ptl = m + 1 := ⟨width * ptl - 1, by omega⟩
    rw [color_offset, color_offset]
    congr 1
    rw [enumIdx, hk, hm, ← enumIdx, enumIdx_cons]
    exact foldlM_head_congr _ _ _ _ _ (coStep_row_wrap_head _ _ _ _ _ _ _)
  · rcases Nat.eq_zero_or_pos width with hw | hw
    · subst hw
      rw [Nat.cast_zero]
    rcases Nat.eq_zero_or_pos h with hh | hh
    · subst hh
      rw [color_offset_height_zero, color_offset_height_zero]
    rcases Nat.eq_zero_or_pos (width * ptl) with hW | hW
    · rw [color_offset_flat_zero _ _ _ _ _ _ _ _ hW, color_offset_flat_zero _ _ _ _ _ _ _ _ hW]
    obtain ⟨k, hk⟩ : ∃ k, h = k + 1 := ⟨h - 1, by omega⟩
    obtain ⟨m, hm⟩ : ∃ m, width * ptl = m + 1 := ⟨width * ptl - 1, by omega⟩
    rw [color_offset, color_offset]
    have hxw : ((width : Int)) ≠ 0 := by
      simp only [ne_eq, Nat.cast_eq_zero]
      omega
    rw [if_neg hxw, if_pos rfl]
    congr 1
    rw [enumIdx, hk, hm, ← enumIdx, enumIdx_cons]
    have hcast : (width : Int) * ptl + ci = ((m + 1 : Nat) : Int) + ci := by
      rw [← hm]
      push_cast
      ring
    rw [hcast]
    exact foldlM_head_congr _ _ _ _ _ (coStep_col_wrap_head (k + 1) (m + 1) ptl ci src off_y dest)

/-! ### C1: toroidal addressing of color_offset -/

theorem dvd_window {n d : Int} (h1 : -n < d) (h2 : d < n) (hd : n ∣ d) : d = 0 := by
  obtain ⟨k, hk⟩ := hd
  have hn : 0 < n := by omega
  subst hk
  rcases lt_trichotomy k 0 with hk0 | hk0 | hk0
  · have h4 : n * k ≤ n * (-1) := mul_le_mul_of_nonneg_left (by omega) (le_of_lt hn)
    rw [mul_neg_one] at h4
    linarith
  · rw [hk0, mul_zero]
  · have h4 : n * 1 ≤ n * k := mul_le_mul_of_nonneg_left (by omega) (le_of_lt hn)
    rw [mul_one] at h4
    linarith

theorem pyWrap_eq_wrapN {n : Nat} {i j : Int} (h1 : -(n : Int) ≤ i) (h2 : i < (n : Int))
    (hd : (n : Int) ∣ j - i) : pyWrap n i = some (wrapN n j) := by
  rw [pyWrap, if_pos ⟨h1, h2⟩, wrapN]
  obtain ⟨k, hk⟩ := hd
  have hj : j = i + (n : Int) * k := by linarith
  rw [hj, Int.add_mul_emod_self_left]

theorem wrapN_cast_inj {n : Nat} {a b : Int} (hn : 0 < n) (hw : wrapN n a = wrapN n b) :
    a % (n : Int) = b % (n : Int) := by
  have hne : (n : Int) ≠ 0 := by omega
  have ha := Int.emod_nonneg a hne
  have hb := Int.emod_nonneg b hne
  rw [wrapN, wrapN] at hw
  omega

theorem wrap_add_inj {n : Nat} (off : Int) {a b : Nat} (ha : a < n) (hb : b < n)
    (hw : wrapN n ((a : Int) + off) = wrapN n ((b : Int) + off)) : a = b := by
  have hn : 0 < n := by omega
  have h2 := wrapN_cast_inj hn hw
  have h3 : (n : Int) ∣ ((a : Int) + off) - ((b : Int) + off) :=
    Int.dvd_of_emod_eq_zero (Int.emod_eq_emod_iff_emod_sub_eq_zero.mp h2)
  have h4 : ((a : Int) + off) - ((b : Int) + off) = (a : Int) - b := by ring
  rw [h4] at h3
  have := dvd_window (by omega) (by omega) h3
  omega

theorem coStep_eq {α : Type} (h W ptl ci : Nat) (src : Buf α) (s : COState α)
    (r c : Nat) (hcp : c % ptl = 0) (Y' X' : Int) (R C : Nat)
    (hY' : Y' = if (h : Int) ≤ s.offY + r then -(r : Int) else s.offY)
    (hX' : X' = if (W : Int) ≤ s.offX + c then -(c : Int) + ci else s.offX)
    (hR : pyWrap h (Y' + r) = some R) (hC : pyWrap W (X' + c) = some C) :
    coStep h W ptl ci src s (r, c) = some ⟨Y', X', updBuf s.out R C (src r c)⟩ := by
  subst hY'
  subst hX'
  simp only [coStep]
  rw [if_neg (by simp [hcp])]
  rw [hR, hC]

theorem coStep_skipped {α : Type} (h W ptl ci : Nat) (src : Buf α) (s : COState α)
    (r c : Nat) (hcp : c % ptl ≠ 0) : coStep h W ptl ci src s (r, c) = some s := by
  simp [coStep, hcp]

theorem XI_skip {W ptl ci : Nat} {off_x : Int} {c : Nat} {X : Int}
    (hX : XI W ptl ci off_x c X) (hcp : c % ptl ≠ 0) : XI W ptl ci off_x (c + 1) X := by
  rcases hX with ⟨hXv, hno⟩ | hf
  · refine Or.inl ⟨hXv, fun c' hc' hcp' => ?_⟩
    rcases Nat.lt_succ_iff_lt_or_eq.mp hc' with h1 | h1
    · exact hno c' h1 hcp'
    · subst h1
      exact absurd hcp' hcp
  · exact Or.inr hf

theorem XI_reset {W ptl ci : Nat} {off_x : Int} {c : Nat} {X : Int}
    (hX : XI W ptl ci off_x c X) : XI W ptl ci off_x 0 X := by
  rcases hX with ⟨hXv, _⟩ | hf
  · exact Or.inl ⟨hXv, fun c' hc' _ => absurd hc' (Nat.not_lt_zero c')⟩
  · exact Or.inr hf

theorem YS_advance {h : Nat} {off_y : Int} {r : Nat} {Y : Int} (hY : YS h off_y r Y) :
    YSpre h off_y (r + 1) Y := by
  rcases hY with ⟨hv, hlt⟩ | ⟨hv, hge, hpos⟩
  · exact Or.inl ⟨hv, by push_cast; omega⟩
  · exact Or.inr ⟨hv, by push_cast; omega⟩

theorem Written_skip {α : Type} {h W ptl ci : Nat} {off_x off_y : Int} {src o : Buf α}
    {r c : Nat} (hWr : Written h W ptl ci off_x off_y src o r c) (hcp : c % ptl ≠ 0) :
    Written h W ptl ci off_x off_y src o r (c + 1) := by
  intro r₀ c₀ hb hr₀ hc₀ hcp₀
  apply hWr r₀ c₀ _ hr₀ hc₀ hcp₀
  rcases hb with h1 | ⟨h1, h2⟩
  · exact Or.inl h1
  · rcases Nat.lt_succ_iff_lt_or_eq.mp h2 with h3 | h3
    · exact Or.inr ⟨h1, h3⟩
    · subst h3
      exact absurd hcp₀ hcp

theorem Written_upd {α : Type} {h W ptl ci : Nat} {off_x off_y : Int} {src o : Buf α}
    {r c : Nat} (hr : r < h) (hc : c < W)
    (hWr : Written h W ptl ci off_x off_y src o r c) :
    Written h W ptl ci off_x off_y src
      (updBuf o (wrapN h ((r : Int) + off_y))
        (wrapN W ((c : Int) + offX0 ptl ci off_x)) (src r c)) r (c + 1) := by
  intro r₀ c₀ hb hr₀ hc₀ hcp₀
  by_cases heq : r₀ = r ∧ c₀ = c
  · obtain ⟨e1, e2⟩ := heq
    subst e1
    subst e2
    simp [updBuf]
  · have hbefore : r₀ < r ∨ (r₀ = r ∧ c₀ < c) := by
      rcases hb with h1 | ⟨h1, h2⟩
      · exact Or.inl h1
      · rcases Nat.lt_succ_iff_lt_or_eq.mp h2 with h3 | h3
        · exact Or.inr ⟨h1, h3⟩
        · exact absurd ⟨h1, h3⟩ heq
    have hold := hWr r₀ c₀ hbefore hr₀ hc₀ hcp₀
    rw [updBuf, if_neg]
    · exact hold
    · rintro ⟨e1, e2⟩
      exact heq ⟨wrap_add_inj off_y hr₀ hr e1,
        wrap_add_inj (offX0 ptl ci off_x) hc₀ hc e2⟩

theorem Written_row_advance {α : Type} {h W ptl ci : Nat} {off_x off_y : Int}
    {src o : Buf α} {r : Nat} (hWr : Written h W ptl ci off_x off_y src o r W) :
    Written h W ptl ci off_x off_y src o (r + 1) 0 := by
  intro r₀ c₀ hb hr₀ hc₀ hcp₀
  apply hWr r₀ c₀ _ hr₀ hc₀ hcp₀
  rcases hb with h1 | ⟨h1, h2⟩
  · rcases Nat.lt_succ_iff_lt_or_eq.mp h1 with h3 | h3
    · exact Or.inl h3
    · exact Or.inr ⟨h3, hc₀⟩
  · exact absurd h2 (Nat.not_lt_zero c₀)

theorem coStep_processed {α : Type} (h width ptl ci : Nat) (off_x off_y : Int)
    (src : Buf α) (hw0 : 0 < width) (hci : ci < ptl)
    (hy1 : -(h : Int) ≤ off_y) (hy2 : off_y ≤ (h : Int))
    (hx1 : -(width : Int) ≤ off_x) (hx2 : off_x ≤ (width : Int))
    (r c : Nat) (hr : r < h) (hc : c < width * ptl) (hcp : c % ptl = 0)
    (s : COState α) (hY : YSpre h off_y r s.offY ∨ YS h off_y r s.offY)
    (hX : XI (width * ptl) ptl ci off_x c s.offX) :
    ∃ Y' X',
      coStep h (width * ptl) ptl ci src s (r, c) =
        some ⟨Y', X', updBuf s.out (wrapN h ((r : Int) + off_y))
          (wrapN (width * ptl) ((c : Int) + offX0 ptl ci off_x)) (src r c)⟩ ∧
      YS h off_y r Y' ∧ XI (width * ptl) ptl ci off_x (c + 1) X' := by
  have hp : 0 < ptl := by omega
  have hptlW : ptl ≤ width * ptl := Nat.le_mul_of_pos_left ptl hw0
  have hox_lo : -((width * ptl : Nat) : Int) ≤ offX0 ptl ci off_x := by
    rw [offX0]
    have h1 : (-(width : Int)) * ptl ≤ off_x * ptl :=
      mul_le_mul_of_nonneg_right hx1 (Int.natCast_nonneg ptl)
    have h2 : (0 : Int) ≤ ci := Int.natCast_nonneg ci
    push_cast
    nlinarith
  have hox_hi : offX0 ptl ci off_x ≤ ((width * ptl : Nat) : Int) + ci := by
    rw [offX0]
    have h1 : off_x * ptl ≤ (width : Int) * ptl :=
      mul_le_mul_of_nonneg_right hx2 (Int.natCast_nonneg ptl)
    push_cast
    linarith
  have hgap : c + ptl ≤ width * ptl := by
    have hd1 : ptl ∣ c := Nat.dvd_of_mod_eq_zero hcp
    have hd2 : ptl ∣ width * ptl := dvd_mul_left ptl width
    have hd3 : ptl ∣ width * ptl - c := Nat.dvd_sub' hd2 hd1
    have := Nat.le_of_dvd (by omega) hd3
    omega
  obtain ⟨Y', hY'⟩ : ∃ Y0 : Int, Y0 = (if (h : Int) ≤ s.offY + r then -(r : Int) else s.offY) :=
    ⟨_, rfl⟩
  obtain ⟨X', hX'⟩ :
      ∃ X0 : Int, X0 = (if ((width * ptl : Nat) : Int) ≤ s.offX + c then -(c : Int) + ci else s.offX) :=
    ⟨_, rfl⟩
  have hYS : YS h off_y r Y' := by
    rw [hY']
    rcases hY with (⟨hYv, hle⟩ | ⟨hYv, hlt, hpos⟩) | (⟨hYv, hlt⟩ | ⟨hYv, hge, hpos⟩)
    · rw [hYv]
      by_cases hfire : (h : Int) ≤ off_y + r
      · rw [if_pos hfire]
        exact Or.inr ⟨by omega, by omega, by omega⟩
      · rw [if_neg hfire]
        exact Or.inl ⟨rfl, by omega⟩
    · rw [hYv, if_neg (by omega)]
      exact Or.inr ⟨rfl, by omega, hpos⟩
    · rw [hYv, if_neg (by omega)]
      exact Or.inl ⟨rfl, hlt⟩
    · rw [hYv, if_neg (by omega)]
      exact Or.inr ⟨rfl, hge, hpos⟩
  have hYr1 : -(h : Int) ≤ Y' + r := by
    rcases hYS with ⟨hYv, hlt⟩ | ⟨hYv, hge, hpos⟩ <;> omega
  have hYr2 : Y' + r < (h : Int) := by
    rcases hYS with ⟨hYv, hlt⟩ | ⟨hYv, hge, hpos⟩ <;> omega
  have hYdvd : (h : Int) ∣ ((r : Int) + off_y) - (Y' + r) := by
    rcases hYS with ⟨hYv, _⟩ | ⟨hYv, _, _⟩
    · rw [hYv]
      have he : ((r : Int) + off_y) - (off_y + r) = 0 := by ring
      rw [he]
      exact dvd_zero _
    · rw [hYv]
      have he : ((r : Int) + off_y) - (off_y - h + r) = (h : Int) := by ring
      rw [he]
  have hRw : pyWrap h (Y' + r) = some (wrapN h ((r : Int) + off_y)) :=
    pyWrap_eq_wrapN hYr1 hYr2 hYdvd
  have hXall : XI (width * ptl) ptl ci off_x (c + 1) X' ∧
      -((width * ptl : Nat) : Int) ≤ X' + c ∧ X' + c < ((width * ptl : Nat) : Int) ∧
      ((width * ptl : Nat) : Int) ∣ ((c : Int) + offX0 ptl ci off_x) - (X' + c) := by
    rcases hX with ⟨hXv, hnofire⟩ | ⟨hXv, hfired⟩
    · by_cases hfire : ((width * ptl : Nat) : Int) ≤ s.offX + c
      · have hfire' : ((width * ptl : Nat) : Int) ≤ offX0 ptl ci off_x + c := by
          rw [hXv] at hfire
          exact hfire
        have hub : (c : Int) + offX0 ptl ci off_x < ((width * ptl : Nat) : Int) + ptl := by
          by_cases hcp2 : ptl ≤ c
          · have hd1 : ptl ∣ c := Nat.dvd_of_mod_eq_zero hcp
            have hmod : (c - ptl) % ptl = 0 :=
              Nat.mod_eq_zero_of_dvd (Nat.dvd_sub' hd1 (dvd_refl ptl))
            have := hnofire (c - ptl) (by omega) hmod
            omega
          · have hc0 : c = 0 :=
              Nat.eq_zero_of_dvd_of_lt (Nat.dvd_of_mod_eq_zero hcp) (by omega)
            omega
        have hdvd : (ptl : Int) ∣ ((c : Int) + offX0 ptl ci off_x - ((width * ptl : Nat) : Int) - ci) := by
          have hd1 : (ptl : Int) ∣ (c : Int) :=
            Int.natCast_dvd_natCast.mpr (Nat.dvd_of_mod_eq_zero hcp)
          have hd2 : (ptl : Int) ∣ ((width * ptl : Nat) : Int) :=
            Int.natCast_dvd_natCast.mpr (dvd_mul_left ptl width)
          have hd3 : (ptl : Int) ∣ off_x * ptl := dvd_mul_left _ _
          rw [offX0]
          have he : (c : Int) + (off_x * ptl + ci) - ((width * ptl : Nat) : Int) - ci =
              ((c : Int) + off_x * ptl) - ((width * ptl : Nat) : Int) := by ring
          rw [he]
          exact dvd_sub (dvd_add hd1 hd3) hd2
        have hwin := dvd_window (by omega) (by omega) hdvd
        have hkey : (c : Int) + offX0 ptl ci off_x - ((width * ptl : Nat) : Int) = ci := by omega
        have hX'v : X' = -(c : Int) + ci := by rw [hX', if_pos hfire]
        refine ⟨Or.inr ⟨by omega, by omega⟩, by omega, by omega, ?_⟩
        rw [hX'v]
        have he : ((c : Int) + offX0 ptl ci off_x) - (-(c : Int) + ci + c) =
            ((width * ptl : Nat) : Int) := by omega
        rw [he]
      · have hX'v : X' = offX0 ptl ci off_x := by rw [hX', if_neg hfire, hXv]
        have hnf : offX0 ptl ci off_x + (c : Int) < ((width * ptl : Nat) : Int) := by
          rw [hXv] at hfire
          omega
        refine ⟨?_, by omega, by omega, ?_⟩
        · refine Or.inl ⟨hX'v, fun c' hc' hcp' => ?_⟩
          rcases Nat.lt_succ_iff_lt_or_eq.mp hc' with h1 | h1
          · exact hnofire c' h1 hcp'
          · subst h1
            omega
        · rw [hX'v]
          have he : ((c : Int) + offX0 ptl ci off_x) - (offX0 ptl ci off_x + c) = 0 := by ring
          rw [he]
          exact dvd_zero _
    · have hnofire2 : ¬ ((width * ptl : Nat) : Int) ≤ s.offX + c := by
        rw [hXv]
        omega
      have hX'v : X' = offX0 ptl ci off_x - ((width * ptl : Nat) : Int) := by
        rw [hX', if_neg hnofire2, hXv]
      refine ⟨Or.inr ⟨hX'v, hfired⟩, by omega, by omega, ?_⟩
      rw [hX'v]
      have he : ((c : Int) + offX0 ptl ci off_x) -
          (offX0 ptl ci off_x - ((width * ptl : Nat) : Int) + c) =
          ((width * ptl : Nat) : Int) := by ring
      rw [he]
  obtain ⟨hXI', hXr1, hXr2, hXdvd⟩ := hXall
  have hCw : pyWrap (width * ptl) (X' + c) =
      some (wrapN (width * ptl) ((c : Int) + offX0 ptl ci off_x)) :=
    pyWrap_eq_wrapN hXr1 hXr2 hXdvd
  exact ⟨Y', X', coStep_eq h (width * ptl) ptl ci src s r c hcp Y' X' _ _ hY' hX' hRw hCw,
    hYS, hXI'⟩

theorem coRun_cols {α : Type} (h width ptl ci : Nat) (off_x off_y : Int) (src : Buf α)
    (hw0 : 0 < width) (hci : ci < ptl)
    (hy1 : -(h : Int) ≤ off_y) (hy2 : off_y ≤ (h : Int))
    (hx1 : -(width : Int) ≤ off_x) (hx2 : off_x ≤ (width : Int))
    (r : Nat) (hr : r < h) :
    ∀ n c : Nat, c + n = width * ptl → ∀ s : COState α,
      YS h off_y r s.offY → XI (width * ptl) ptl ci off_x c s.offX →
      Written h (width * ptl) ptl ci off_x off_y src s.out r c →
      ∃ s', List.foldlM (coStep h (width * ptl) ptl ci src) s (colsFrom r c n) = some s' ∧
        YS h off_y r s'.offY ∧ XI (width * ptl) ptl ci off_x (width * ptl) s'.offX ∧
        Written h (width * ptl) ptl ci off_x off_y src s'.out r (width * ptl) := by
  intro n
  induction n with
  | zero =>
    intro c hcn s hYS hXI hWr
    have hcW : c = width * ptl := by omega
    subst hcW
    exact ⟨s, rfl, hYS, hXI, hWr⟩
  | succ n ih =>
    intro c hcn s hYS hXI hWr
    have hc : c < width * ptl := by omega
    have hlist : colsFrom r c (n + 1) = (r, c) :: colsFrom r (c + 1) n := rfl
    rw [hlist]
    by_cases hcp : c % ptl = 0
    · obtain ⟨Y', X', hstep, hYS', hXI'⟩ :=
        coStep_processed h width ptl ci off_x off_y src hw0 hci hy1 hy2 hx1 hx2
          r c hr hc hcp s (Or.inr hYS) hXI
      rw [List.foldlM_cons, hstep]
      simp only [Option.bind_eq_bind, Option.some_bind]
      exact ih (c + 1) (by omega) ⟨Y', X', _⟩ hYS' hXI' (Written_upd hr hc hWr)
    · rw [List.foldlM_cons, coStep_skipped h (width * ptl) ptl ci src s r c hcp]
      simp only [Option.bind_eq_bind, Option.some_bind]
      exact ih (c + 1) (by omega) s hYS (XI_skip hXI hcp) (Written_skip hWr hcp)

theorem coRun_rows {α : Type} (h width ptl ci : Nat) (off_x off_y : Int) (src : Buf α)
    (hw0 : 0 < width) (hci : ci < ptl)
    (hy1 : -(h : Int) ≤ off_y) (hy2 : off_y ≤ (h : Int))
    (hx1 : -(width : Int) ≤ off_x) (hx2 : off_x ≤ (width : Int)) :
    ∀ n r : Nat, r + n = h → ∀ s : COState α,
      YSpre h off_y r s.offY → XI (width * ptl) ptl ci off_x 0 s.offX →
      Written h (width * ptl) ptl ci off_x off_y src s.out r 0 →
      ∃ s', List.foldlM (coStep h (width * ptl) ptl ci src) s
          (rowsFrom (width * ptl) r n) = some s' ∧
        Written h (width * ptl) ptl ci off_x off_y src s'.out h 0 := by
  intro n
  induction n with
  | zero =>
    intro r hrn s hYpre hXI hWr
    have hrh : r = h := by omega
    subst hrh
    exact ⟨s, rfl, hWr⟩
  | succ n ih =>
    intro r hrn s hYpre hXI hWr
    have hr : r < h := by omega
    have hW : 0 < width * ptl := Nat.mul_pos hw0 (by omega)
    obtain ⟨m, hm⟩ : ∃ m, width * ptl = m + 1 := ⟨width * ptl - 1, by omega⟩
    have hlist : rowsFrom (width * ptl) r (n + 1) =
        colsFrom r 0 (width * ptl) ++ rowsFrom (width * ptl) (r + 1) n := rfl
    rw [hlist, List.foldlM_append]
    have hcols : colsFrom r 0 (width * ptl) = (r, 0) :: colsFrom r 1 m := by
      rw [hm]
      rfl
    rw [hcols, List.foldlM_cons]
    obtain ⟨Y', X', hstep, hYS', hXI'⟩ :=
      coStep_processed h width ptl ci off_x off_y src hw0 hci hy1 hy2 hx1 hx2
        r 0 hr hW (Nat.zero_mod ptl) s (Or.inl hYpre) hXI
    rw [hstep]
    simp only [Option.bind_eq_bind, Option.some_bind]
    obtain ⟨s1, hfold1, hYS1, hXI1, hWr1⟩ :=
      coRun_cols h width ptl ci off_x off_y src hw0 hci hy1 hy2 hx1 hx2 r hr
        m 1 (by omega)
        ⟨Y', X', updBuf s.out (wrapN h ((r : Int) + off_y))
          (wrapN (width * ptl) (((0 : Nat) : Int) + offX0 ptl ci off_x)) (src r 0)⟩
        hYS' hXI' (Written_upd hr hW hWr)
    rw [hfold1]
    simp only [Option.bind_eq_bind, Option.some_bind]
    exact ih (r + 1) (by omega) s1 (YS_advance hYS1) (XI_reset hXI1)
      (Written_row_advance hWr1)

/-- C1 counterexample: the claim asserts the mod formula also for offsets whose
magnitude exceeds the dimension ("magnitudes up to 2*intensity even when that
exceeds height or width").  On a 2×1×1 image with `offset_y = 3 > height`, the
in-place wrap fires at row 0 and resets the offset to 0, so the sample of
row 0 is written to row 0 — but the claimed destination `(0 + 3) mod 2 = 1`
holds the sample of row 1 instead. -/
theorem color_offset_mod_counterexample :
    (color_offset 2 1 1 0 0 3 rowSrc rowSrc).map
        (fun b => b (wrapN 2 (((0 : Nat) : Int) + 3))
          (wrapN 1 (((0 : Nat) : Int) + (0 * 1 + 0)))) ≠
      some (rowSrc 0 0) := by decide

/-- C1 amended.  For offsets within one full cycle of each dimension
(`-height ≤ offsetRow ≤ height` and `-width ≤ offsetCol ≤ width` — in
particular all offsets the engine draws whenever `2*intensity` is at most the
dimension), `color_offset` succeeds and writes each enumerated source sample
`(r, c)` to destination `((r + offsetRow) mod height,
(c + flatOffsetCol) mod (width*channelsPerPixel))` with
`flatOffsetCol = offsetCol * channelsPerPixel + channelIndex`; negative offsets
behave exactly as their nonnegative equivalents modulo the dimension.  Beyond
that range the stateful wrap deviates from modulo arithmetic
(see `color_offset_mod_counterexample`). -/
theorem color_offset_mod_amended {α : Type} (h width ptl ci : Nat) (off_x off_y : Int)
    (dest src : Buf α) (hw0 : 0 < width) (hci : ci < ptl)
    (hy1 : -(h : Int) ≤ off_y) (hy2 : off_y ≤ (h : Int))
    (hx1 : -(width : Int) ≤ off_x) (hx2 : off_x ≤ (width : Int)) :
    ∃ b, color_offset h width ptl ci off_x off_y dest src = some b ∧
      ∀ r c : Nat, r < h → c < width * ptl → c % ptl = 0 →
        b (wrapN h ((r : Int) + off_y))
          (wrapN (width * ptl) ((c : Int) + (off_x * ptl + ci))) = src r c := by
  have hinit : (if off_x = 0 then (ci : Int) else off_x * ptl + ci) = offX0 ptl ci off_x := by
    rw [offX0]
    split
    · next he => rw [he, zero_mul, zero_add]
    · rfl
  obtain ⟨s', hfold, hWr⟩ :=
    coRun_rows h width ptl ci off_x off_y src hw0 hci hy1 hy2 hx1 hx2 h 0 (by omega)
      ⟨off_y, offX0 ptl ci off_x, dest⟩
      (Or.inl ⟨rfl, by push_cast; omega⟩)
      (Or.inl ⟨rfl, fun c' hc' _ => absurd hc' (Nat.not_lt_zero c')⟩)
      (fun r₀ c₀ hb _ _ _ => by
        rcases hb with h1 | ⟨_, h2⟩
        · exact absurd h1 (Nat.not_lt_zero r₀)
        · exact absurd h2 (Nat.not_lt_zero c₀))
  refine ⟨s'.out, ?_, ?_⟩
  · show (List.foldlM (coStep h (width * ptl) ptl ci src)
        ⟨off_y, if off_x = 0 then (ci : Int) else off_x * ptl + ci, dest⟩
        (enumIdx h (width * ptl))).map COState.out = some s'.out
    rw [hinit, enumIdx, hfold]
    rfl
  · intro r c hrh hcW hcp
    have := hWr r c (Or.inl hrh) hrh hcW hcp
    rw [offX0] at this
    exact this

/-- C1 witness: on a 2×2×1 image with offsets `(-1, -1)` the sample at `(0, 0)`
lands at the wrapped destination `(1, 1)`. -/
theorem color_offset_mod_amended_witness :
    (color_offset 2 2 1 0 (-1) (-1) rowSrc rowSrc).map
        (fun b => b (wrapN 2 (((0 : Nat) : Int) + (-1)))
          (wrapN 2 (((0 : Nat) : Int) + ((-1) * 1 + 0)))) =
      some (rowSrc 0 0) := by
  obtain ⟨b, hb, hp⟩ := color_offset_mod_amended 2 2 1 0 (-1) (-1) rowSrc rowSrc
    (by decide) (by decide) (by decide) (by decide) (by decide) (by decide)
  rw [hb]
  simp only [Option.map_some']
  exact congrArg some (hp 0 0 (by decide) (by decide) (by decide))

/-! ### C7: all operations read only the source buffer -/

theorem coFold_dest_indep {α : Type} (h W ptl ci : Nat) (src o1 o2 : Buf α) :
    ∀ (l : List (Nat × Nat)) (s1 s2 : COState α),
      s1.offY = s2.offY → s1.offX = s2.offX →
      (∀ r c, (s1.out r c = o1 r c ∧ s2.out r c = o2 r c) ∨ s1.out r c = s2.out r c) →
      (List.foldlM (coStep h W ptl ci src) s1 l = none ∧
        List.foldlM (coStep h W ptl ci src) s2 l = none) ∨
      (∃ t1 t2, List.foldlM (coStep h W ptl ci src) s1 l = some t1 ∧
        List.foldlM (coStep h W ptl ci src) s2 l = some t2 ∧
        (∀ r c, (t1.out r c = o1 r c ∧ t2.out r c = o2 r c) ∨ t1.out r c = t2.out r c)) := by
  intro l
  induction l with
  | nil =>
    intro s1 s2 hY hX hrel
    exact Or.inr ⟨s1, s2, rfl, rfl, hrel⟩
  | cons a l ih =>
    intro s1 s2 hY hX hrel
    rcases a with ⟨r, c⟩
    by_cases hcp : c % ptl = 0
    · rcases hpwY : pyWrap h ((if (h : Int) ≤ s1.offY + r then -(r : Int) else s1.offY) + r)
        with _ | R
      · have hpwY2 : pyWrap h ((if (h : Int) ≤ s2.offY + r then -(r : Int) else s2.offY) + r)
            = none := by
          rw [← hY]
          exact hpwY
        have e1 : coStep h W ptl ci src s1 (r, c) = none := by
          simp only [coStep]
          rw [if_neg (by simp [hcp]), hpwY]
        have e2 : coStep h W ptl ci src s2 (r, c) = none := by
          simp only [coStep]
          rw [if_neg (by simp [hcp]), hpwY2]
        left
        constructor <;> simp only [List.foldlM_cons] <;> [rw [e1]; rw [e2]] <;> rfl
      · rcases hpwX : pyWrap W ((if (W : Int) ≤ s1.offX + c then -(c : Int) + ci else s1.offX) + c)
          with _ | C
        · have hpwX2 : pyWrap W
              ((if (W : Int) ≤ s2.offX + c then -(c : Int) + ci else s2.offX) + c) = none := by
            rw [← hX]
            exact hpwX
          have hpwY2 : pyWrap h
              ((if (h : Int) ≤ s2.offY + r then -(r : Int) else s2.offY) + r) = some R := by
            rw [← hY]
            exact hpwY
          have e1 : coStep h W ptl ci src s1 (r, c) = none := by
            simp only [coStep]
            rw [if_neg (by simp [hcp]), hpwY, hpwX]
          have e2 : coStep h W ptl ci src s2 (r, c) = none := by
            simp only [coStep]
            rw [if_neg (by simp [hcp]), hpwY2, hpwX2]
          left
          constructor <;> simp only [List.foldlM_cons] <;> [rw [e1]; rw [e2]] <;> rfl
        · have hpwY2 : pyWrap h
              ((if (h : Int) ≤ s2.offY + r then -(r : Int) else s2.offY) + r) = some R := by
            rw [← hY]
            exact hpwY
          have hpwX2 : pyWrap W
              ((if (W : Int) ≤ s2.offX + c then -(c : Int) + ci else s2.offX) + c) = some C := by
            rw [← hX]
            exact hpwX
          have e1 : coStep h W ptl ci src s1 (r, c) =
              some ⟨_, _, updBuf s1.out R C (src r c)⟩ :=
            coStep_eq h W ptl ci src s1 r c hcp _ _ R C rfl rfl hpwY hpwX
          have e2 : coStep h W ptl ci src s2 (r, c) =
              some ⟨_, _, updBuf s2.out R C (src r c)⟩ :=
            coStep_eq h W ptl ci src s2 r c hcp _ _ R C rfl rfl hpwY2 hpwX2
          simp only [List.foldlM_cons]
          rw [e1, e2]
          simp only [Option.bind_eq_bind, Option.some_bind]
          apply ih
          · show (if (h : Int) ≤ s1.offY + r then -(r : Int) else s1.offY) =
              (if (h : Int) ≤ s2.offY + r then -(r : Int) else s2.offY)
            rw [hY]
          · show (if (W : Int) ≤ s1.offX + c then -(c : Int) + ci else s1.offX) =
              (if (W : Int) ≤ s2.offX + c then -(c : Int) + ci else s2.offX)
            rw [hX]
          · intro rr cc
            by_cases hrc : rr = R ∧ cc = C
            · right
              show updBuf s1.out R C (src r c) rr cc = updBuf s2.out R C (src r c) rr cc
              simp only [updBuf]
              rw [if_pos hrc, if_pos hrc]
            · rcases hrel rr cc with ⟨ha, hb⟩ | hab
              · left
                constructor <;> simp only [updBuf] <;> rw [if_neg hrc] <;> assumption
              · right
                show updBuf s1.out R C (src r c) rr cc = updBuf s2.out R C (src r c) rr cc
                simp only [updBuf]
                rw [if_neg hrc, if_neg hrc]
                exact hab
    · have e1 := coStep_skipped h W ptl ci src s1 r c hcp
      have e2 := coStep_skipped h W ptl ci src s2 r c hcp
      simp only [List.foldlM_cons]
      rw [e1, e2]
      simp only [Option.bind_eq_bind, Option.some_bind]
      exact ih s1 s2 hY hX hrel

/-- C7.  Every operation reads only the (frozen) source buffer: the values a
band shift or a channel-offset pass writes do not depend on the destination
buffer's current contents.  Running the same operation against two different
destinations succeeds or fails identically, and at every position either both
destinations keep their own prior value (position untouched) or both receive
one common value — a value computed from the source alone.  In particular each
band shift sees the pristine original image, not the results of previous
shifts. -/
theorem reads_only_source {α β : Type} :
    (∀ (h w : Nat) (inp out1 out2 : Buf β) (offset v1 v2 : Nat) (b1 b2 : Buf β),
      glitch_right h w inp out1 offset v1 v2 = some b1 →
      glitch_right h w inp out2 offset v1 v2 = some b2 →
      ∀ r c, (b1 r c = out1 r c ∧ b2 r c = out2 r c) ∨ b1 r c = b2 r c) ∧
    (∀ (h w : Nat) (inp out1 out2 : Buf β) (offset v1 v2 : Nat) (b1 b2 : Buf β),
      glitch_left h w inp out1 offset v1 v2 = some b1 →
      glitch_left h w inp out2 offset v1 v2 = some b2 →
      ∀ r c, (b1 r c = out1 r c ∧ b2 r c = out2 r c) ∨ b1 r c = b2 r c) ∧
    (∀ (h width ptl ci : Nat) (off_x off_y : Int) (dest1 dest2 src : Buf α),
      ((color_offset h width ptl ci off_x off_y dest1 src).isSome =
        (color_offset h width ptl ci off_x off_y dest2 src).isSome) ∧
      ∀ b1 b2, color_offset h width ptl ci off_x off_y dest1 src = some b1 →
        color_offset h width ptl ci off_x off_y dest2 src = some b2 →
        ∀ r c, (b1 r c = dest1 r c ∧ b2 r c = dest2 r c) ∨ b1 r c = b2 r c) := by
  refine ⟨?_, ?_, ?_⟩
  · intro h w inp out1 out2 offset v1 v2 b1 b2 hb1 hb2 r c
    rw [glitch_right] at hb1 hb2
    cases hsy : randint 0 h v1 with
    | none =>
      rw [hsy] at hb1
      exact absurd hb1 (by simp)
    | some sy =>
      cases hch : randint 1 (h / 4) v2 with
      | none =>
        rw [hsy, hch] at hb1
        exact absurd hb1 (by simp)
      | some ch0 =>
        rw [hsy, hch] at hb1 hb2
        simp only [Option.some_bind, Option.map_some', Option.some.injEq] at hb1 hb2
        subst hb1
        subst hb2
        by_cases hband : sy ≤ r ∧ r < sy + chunk_clamp h sy ch0 ∧ c < w
        · right
          show (if sy ≤ r ∧ r < sy + chunk_clamp h sy ch0 ∧ c < w then
              if offset ≤ c then inp r (c - offset) else inp r (w - offset + c)
            else out1 r c) = (if sy ≤ r ∧ r < sy + chunk_clamp h sy ch0 ∧ c < w then
              if offset ≤ c then inp r (c - offset) else inp r (w - offset + c)
            else out2 r c)
          rw [if_pos hband, if_pos hband]
        · left
          constructor
          · show (if sy ≤ r ∧ r < sy + chunk_clamp h sy ch0 ∧ c < w then
                if offset ≤ c then inp r (c - offset) else inp r (w - offset + c)
              else out1 r c) = out1 r c
            rw [if_neg hband]
          · show (if sy ≤ r ∧ r < sy + chunk_clamp h sy ch0 ∧ c < w then
                if offset ≤ c then inp r (c - offset) else inp r (w - offset + c)
              else out2 r c) = out2 r c
            rw [if_neg hband]
  · intro h w inp out1 out2 offset v1 v2 b1 b2 hb1 hb2 r c
    rw [glitch_left] at hb1 hb2
    cases hsy : randint 0 h v1 with
    | none =>
      rw [hsy] at hb1
      exact absurd hb1 (by simp)
    | some sy =>
      cases hch : randint 1 (h / 4) v2 with
      | none =>
        rw [hsy, hch] at hb1
        exact absurd hb1 (by simp)
      | some ch0 =>
        rw [hsy, hch] at hb1 hb2
        simp only [Option.some_bind, Option.map_some', Option.some.injEq] at hb1 hb2
        subst hb1
        subst hb2
        by_cases hband : sy ≤ r ∧ r < sy + chunk_clamp h sy ch0 ∧ c < w
        · right
          show (if sy ≤ r ∧ r < sy + chunk_clamp h sy ch0 ∧ c < w then
              if c < w - offset then inp r (c + offset) else inp r (c - (w - offset))
            else out1 r c) = (if sy ≤ r ∧ r < sy + chunk_clamp h sy ch0 ∧ c < w then
              if c < w - offset then inp r (c + offset) else inp r (c - (w - offset))
            else out2 r c)
          rw [if_pos hband, if_pos hband]
        · left
          constructor
          · show (if sy ≤ r ∧ r < sy + chunk_clamp h sy ch0 ∧ c < w then
                if c < w - offset then inp r (c + offset) else inp r (c - (w - offset))
              else out1 r c) = out1 r c
            rw [if_neg hband]
          · show (if sy ≤ r ∧ r < sy + chunk_clamp h sy ch0 ∧ c < w then
                if c < w - offset then inp r (c + offset) else inp r (c - (w - offset))
              else out2 r c) = out2 r c
            rw [if_neg hband]
  · intro h width ptl ci off_x off_y dest1 dest2 src
    have hco1 : color_offset h width ptl ci off_x off_y dest1 src =
        (List.foldlM (coStep h (width * ptl) ptl ci src)
          ⟨off_y, if off_x = 0 then (ci : Int) else off_x * ptl + ci, dest1⟩
          (enumIdx h (width * ptl))).map COState.out := rfl
    have hco2 : color_offset h width ptl ci off_x off_y dest2 src =
        (List.foldlM (coStep h (width * ptl) ptl ci src)
          ⟨off_y, if off_x = 0 then (ci : Int) else off_x * ptl + ci, dest2⟩
          (enumIdx h (width * ptl))).map COState.out := rfl
    have H := coFold_dest_indep h (width * ptl) ptl ci src dest1 dest2
      (enumIdx h (width * ptl))
      ⟨off_y, if off_x = 0 then (ci : Int) else off_x * ptl + ci, dest1⟩
      ⟨off_y, if off_x = 0 then (ci : Int) else off_x * ptl + ci, dest2⟩
      rfl rfl (fun r c => Or.inl ⟨rfl, rfl⟩)
    rcases H with ⟨e1, e2⟩ | ⟨t1, t2, e1, e2, hrel⟩
    · constructor
      · rw [hco1, hco2, e1, e2]
      · intro b1 b2 hb1 hb2 r c
        rw [hco1, e1] at hb1
        exact absurd hb1 (by simp)
    · constructor
      · rw [hco1, hco2, e1, e2]
        rfl
      · intro b1 b2 hb1 hb2 r c
        rw [hco1, e1] at hb1
        rw [hco2, e2] at hb2
        simp only [Option.map_some', Option.some.injEq] at hb1 hb2
        subst hb1
        subst hb2
        exact hrel r c

/-- C7 witness: the rightward shift applied to two different destination
buffers; at position `(0, 0)` either both keep their own prior value or both
receive the same source-derived value. -/
theorem reads_only_source_witness :
    ((glitch_right 4 2 rowSrc rowSrc 1 0 0).map (fun b => b 0 0) =
      (glitch_right 4 2 rowSrc colSrc 1 0 0).map (fun b => b 0 0)) ∨
    ((glitch_right 4 2 rowSrc rowSrc 1 0 0).map (fun b => b 0 0) = some (rowSrc 0 0) ∧
      (glitch_right 4 2 rowSrc colSrc 1 0 0).map (fun b => b 0 0) = some (colSrc 0 0)) := by
  cases hb1 : glitch_right 4 2 rowSrc rowSrc 1 0 0 with
  | none => simp [glitch_right, randint] at hb1
  | some b1 =>
    cases hb2 : glitch_right 4 2 rowSrc colSrc 1 0 0 with
    | none => simp [glitch_right, randint] at hb2
    | some b2 =>
      rcases (reads_only_source (α := ℤ) (β := ℤ)).1 4 2 rowSrc rowSrc colSrc 1 0 0
          b1 b2 hb1 hb2 0 0 with ⟨e1, e2⟩ | e
      · right
        exact ⟨congrArg some e1, congrArg some e2⟩
      · left
        exact congrArg some e
